import Mathlib

/-!
# The packet ordering coordinator of `packet-sync.go`

A shallow embedding of `packetSync`: the worker goroutine, its two pending
slices and the drain loop `maybeSendPackets`.

* Identifiers are `uint32` in the source.  The code only compares them
  (`==` and `<`), it never does arithmetic on them, so they are embedded as
  natural numbers; every statement below that holds for all naturals holds
  for the 32-bit ones, and every concrete input used below is below `2^32`.
* The three channels `ids`, `packets` and `fini` are embedded as the list of
  events in the order in which the worker's `select` receives them.  The
  `select` may take the channels in any order, so a statement about every
  interleaving is a statement about every event list.
* The calls made to `sender.sendPacket` are recorded, oldest first, in the
  ghost field `sent`.
-/

namespace PacketSync

/-- Modelled from the spec: the interface `responsePacket` is declared outside
`packet-sync.go`.  The spec describes a payload as an opaque unit of output
data that exposes its own identifier; `id` is that identifier (`id() uint32`)
and `body` stands for the opaque bytes. -/
structure responsePacket where
  id : Nat
  body : List Nat
deriving DecidableEq

/-- The result type `error` of `sendPacket`: `none` is `nil`, `some c` is a
non-nil error. -/
abbrev SendError := Option Nat

/-- The interface `packetSender`.  A sender may be stateful, so the value it
returns may depend on the calls it has already received (first argument) as
well as on the packet it is handed. -/
structure packetSender where
  sendPacket : List responsePacket → responsePacket → SendError

/-- The library routine `sort.Slice`, taken by its contract: the result is a
rearrangement of the input, and it is in order for the comparison function.
The routine is not stable, so nothing is assumed about the relative order of
elements that compare equal.  Both calls in `worker` compare a numeric key with
`<`, and `ordered` states the contract for comparisons of that shape. -/
structure SliceSort where
  run : {α : Type} → (α → α → Bool) → List α → List α
  perm : ∀ {α : Type} (less : α → α → Bool) (l : List α), (run less l).Perm l
  ordered : ∀ {α : Type} (key : α → Nat) (l : List α),
    (run (fun a b => decide (key a < key b)) l).Pairwise (fun a b => key a ≤ key b)

/-- One instance of the `sort.Slice` contract: insertion sort. -/
def insertionSlice : SliceSort where
  run less l := l.insertionSort (fun a b => less b a = false)
  perm less l := List.perm_insertionSort _ l
  ordered := by
    intro α key l
    haveI : IsTotal α (fun a b => decide (key b < key a) = false) :=
      ⟨fun a b => by simp only [decide_eq_false_iff_not, not_lt]; exact le_total _ _⟩
    haveI : IsTrans α (fun a b => decide (key b < key a) = false) :=
      ⟨fun a b c => by simp only [decide_eq_false_iff_not, not_lt]; exact le_trans⟩
    have h := List.sorted_insertionSort (fun a b => decide (key b < key a) = false) l
    exact List.Pairwise.imp (fun {a b} hab => by simpa using hab) h

/-- The struct `packetSync`.  `incoming` and `outgoing` are the two pending
slices.  The channel fields are embedded as the event list handed to `worker`
and the field `sender` as a parameter of the functions below.  Two ghost fields
are added: `sent` lists the packets on which `sendPacket` has been called,
oldest first, and `running` tells whether the worker goroutine is still in its
loop. -/
structure packetSync where
  incoming : List Nat
  outgoing : List responsePacket
  sent : List responsePacket
  running : Bool
deriving DecidableEq

/-- What the worker's `select` can receive: an identifier from `ids`, a packet
from `packets`, or the shutdown signal from `fini`. -/
inductive Event where
  | id (n : Nat)
  | pkt (p : responsePacket)
  | fini
deriving DecidableEq

/-- The loop of `maybeSendPackets`.  It stops when either slice is empty or
the heads disagree; on agreement it calls `sendPacket` on the head packet,
drops the value the call returns, and pops both heads. -/
def maybeSendPacketsLoop (sender : packetSender) :
    List Nat → List responsePacket → List responsePacket →
      List Nat × List responsePacket × List responsePacket
  | i :: ins, out :: outs, sent =>
    if i = out.id then
      let _err := sender.sendPacket sent out
      maybeSendPacketsLoop sender ins outs (sent ++ [out])
    else (i :: ins, out :: outs, sent)
  | ins, outs, sent => (ins, outs, sent)

/-- Send as many packets as are ready: `maybeSendPackets`. -/
def maybeSendPackets (sender : packetSender) (s : packetSync) : packetSync :=
  let r := maybeSendPacketsLoop sender s.incoming s.outgoing s.sent
  { s with incoming := r.1, outgoing := r.2.1, sent := r.2.2 }

/-- One turn of the `for` loop of `worker` when its `select` receives `e`.  A
worker that has returned takes no further turn. -/
def workerStep (S : SliceSort) (sender : packetSender) (s : packetSync) (e : Event) :
    packetSync :=
  if s.running then
    match e with
    | Event.id n =>
      maybeSendPackets sender
        { s with incoming := S.run (fun a b => decide (a < b)) (s.incoming ++ [n]) }
    | Event.pkt p =>
      maybeSendPackets sender
        { s with outgoing := S.run (fun a b => decide (a.id < b.id)) (s.outgoing ++ [p]) }
    | Event.fini => { s with running := false }
  else s

/-- The goroutine `worker`, run on the events in the order it receives them. -/
def worker (S : SliceSort) (sender : packetSender) (s : packetSync) (evs : List Event) :
    packetSync :=
  evs.foldl (workerStep S sender) s

/-- The state `newpSync` builds: both pending slices empty, nothing sent, the
worker started. -/
def newpSync : packetSync :=
  { incoming := [], outgoing := [], sent := [], running := true }

/-- The coordinator together with the goroutines that are inside `close`.  The
body of `close` is one send on `fini`, and `newpSync` makes `fini` without a
buffer: a call of `close` stays in its send until a receive from `fini` takes
it, and the only receive from `fini` in the program is the worker's
`case <-s.fini`.  `closing` counts the calls of `close` waiting in their send,
`closed` the calls of `close` that have returned. -/
structure Coordinator where
  sync : packetSync
  closing : Nat
  closed : Nat
deriving DecidableEq

/-- What can happen next to a coordinator: some goroutine calls `close` and
starts its send on `fini`, or the worker's `select` receives an event.  A worker
that is held inside `sendPacket` receives nothing; that is a run in which no
`receive` follows. -/
inductive Action where
  | close
  | receive (e : Event)
deriving DecidableEq

/-- One action on the coordinator.  A call of `close` joins the senders waiting
on `fini`.  The worker's `select` can receive from `fini` only while the worker
is in its loop and a sender is waiting; the receive releases one waiting call
of `close`, which returns, and the worker takes the turn of `workerStep` on the
shutdown signal.  Any other receive is a turn of `workerStep`. -/
def coordinatorStep (S : SliceSort) (sender : packetSender) (c : Coordinator) :
    Action → Coordinator
  | Action.close => { c with closing := c.closing + 1 }
  | Action.receive Event.fini =>
    if c.sync.running = true ∧ 0 < c.closing then
      { sync := workerStep S sender c.sync Event.fini,
        closing := c.closing - 1, closed := c.closed + 1 }
    else c
  | Action.receive e => { c with sync := workerStep S sender c.sync e }

/-- A run of actions on the coordinator. -/
def coordinatorRun (S : SliceSort) (sender : packetSender) (c : Coordinator)
    (acts : List Action) : Coordinator :=
  acts.foldl (coordinatorStep S sender) c

/-- The coordinator as `newpSync` returns it: the worker started, no call of
`close` made yet. -/
def newCoordinator : Coordinator :=
  { sync := newpSync, closing := 0, closed := 0 }

/-- The identifiers received on `ids`, in order. -/
def tokensOf : List Event → List Nat
  | [] => []
  | Event.id n :: evs => n :: tokensOf evs
  | _ :: evs => tokensOf evs

/-- The packets received on `packets`, in order. -/
def packetsOf : List Event → List responsePacket
  | [] => []
  | Event.pkt p :: evs => p :: packetsOf evs
  | _ :: evs => packetsOf evs

/-- The identifiers of a list of packets. -/
def idsOf (l : List responsePacket) : List Nat := l.map responsePacket.id

/-- The spec's MatchInvariant: a pending list is empty, or the first pending
identifier differs from the identifier of the first pending packet. -/
def MatchInvariant (s : packetSync) : Prop :=
  s.incoming = [] ∨ s.outgoing = [] ∨ s.incoming.head? ≠ (idsOf s.outgoing).head?

instance : DecidablePred MatchInvariant := fun s => by
  unfold MatchInvariant; infer_instance

/-- A sender whose every call succeeds. -/
def okSender : packetSender := ⟨fun _ _ => none⟩

/-- A sender whose every call fails. -/
def failSender : packetSender := ⟨fun _ _ => some 1⟩

/-- The packet with identifier `n` and an empty body, the `fakepacket(n)` of
the test file. -/
def fakepacket (n : Nat) : responsePacket := ⟨n, []⟩

/-- The events of one table of `TestPacketSync`: all identifiers, then all
packets. -/
def tableEvents (toks pkts : List Nat) : List Event :=
  toks.map Event.id ++ pkts.map (fun n => Event.pkt (fakepacket n))

/-- What is known of a state `s` that the worker reaches from two empty
pending slices by the events `evs`, when `new` lists the packets it has sent on
the way. -/
structure Reached (evs : List Event) (s : packetSync) (new : List responsePacket) : Prop where
  running : s.running = true
  packets : (packetsOf evs).Perm (new ++ s.outgoing)
  tokens : (tokensOf evs).Perm (idsOf new ++ s.incoming)
  incSorted : s.incoming.Pairwise (fun a b => a ≤ b)
  outSorted : s.outgoing.Pairwise (fun a b => a.id ≤ b.id)
  matchInv : MatchInvariant s
  tokensInOrder : (tokensOf evs).Pairwise (fun a b => a < b) →
    tokensOf evs = idsOf new ++ s.incoming
  packetsInOrder : (idsOf (packetsOf evs)).Pairwise (fun a b => a < b) →
    packetsOf evs = new ++ s.outgoing

/-- The events of `TestPacketSync`: its two tables, one after the other, on one
coordinator. -/
def testRun : List Event :=
  tableEvents [0, 1, 2, 3] [0, 1, 2, 3] ++ tableEvents [0, 1, 2, 3, 4] [0, 4, 1, 3, 2]

/-- The words of the claim on the drain: the first `k` pending identifiers and
the first `k` pending packets exist, and they agree position by position. -/
def AgreeUpTo (k : Nat) (ins : List Nat) (outs : List responsePacket) : Prop :=
  k ≤ ins.length ∧ k ≤ outs.length ∧
    ∀ i, i < k → ins[i]? = (outs[i]?).map responsePacket.id

instance (k : Nat) (ins : List Nat) (outs : List responsePacket) :
    Decidable (AgreeUpTo k ins outs) := by
  unfold AgreeUpTo; infer_instance

/-- The design note's ordered insertion of an identifier into the ascending
pending list: it goes before the first pending identifier that is not smaller. -/
def insertToken (x : Nat) (l : List Nat) : List Nat :=
  l.orderedInsert (fun a b => a ≤ b) x

/-- The design note's ordered insertion of a packet into the pending list
ascending by identifier. -/
def insertPacket (p : responsePacket) (l : List responsePacket) : List responsePacket :=
  l.orderedInsert (fun a b => a.id ≤ b.id) p

/-- One turn of the worker as the design note proposes it: the arrival is put
at its ordered position instead of being appended and the slice sorted again.
Everything else is as in `workerStep`. -/
def workerStepInsert (sender : packetSender) (s : packetSync) (e : Event) : packetSync :=
  if s.running then
    match e with
    | Event.id n => maybeSendPackets sender { s with incoming := insertToken n s.incoming }
    | Event.pkt p => maybeSendPackets sender { s with outgoing := insertPacket p s.outgoing }
    | Event.fini => { s with running := false }
  else s

/-- The worker of the design note, run on the events it receives. -/
def workerInsert (sender : packetSender) (s : packetSync) (evs : List Event) : packetSync :=
  evs.foldl (workerStepInsert sender) s

/-- Two states that agree on the pending identifiers, on the identifiers of the
pending packets, on the identifiers of the packets sent and on whether the
worker runs: they differ at most in which of several packets carrying one
identifier stands where. -/
def SameIds (s t : packetSync) : Prop :=
  s.incoming = t.incoming ∧ idsOf s.outgoing = idsOf t.outgoing ∧
    idsOf s.sent = idsOf t.sent ∧ s.running = t.running

/-- Both pending lists of a state are ascending. -/
def Ascending (s : packetSync) : Prop :=
  s.incoming.Pairwise (fun a b => a ≤ b) ∧ s.outgoing.Pairwise (fun a b => a.id ≤ b.id)

/-! ## The drain loop -/

theorem maybeSendPacketsLoop_split (sender : packetSender) :
    ∀ (ins : List Nat) (outs sent : List responsePacket),
      ∃ m : List responsePacket,
        outs = m ++ (maybeSendPacketsLoop sender ins outs sent).2.1 ∧
        ins = idsOf m ++ (maybeSendPacketsLoop sender ins outs sent).1 ∧
        (maybeSendPacketsLoop sender ins outs sent).2.2 = sent ++ m
  | [], outs, sent => ⟨[], by simp [maybeSendPacketsLoop, idsOf]⟩
  | i :: ins, [], sent => ⟨[], by simp [maybeSendPacketsLoop, idsOf]⟩
  | i :: ins, out :: outs, sent => by
    by_cases h : i = out.id
    · obtain ⟨m, h1, h2, h3⟩ := maybeSendPacketsLoop_split sender ins outs (sent ++ [out])
      refine ⟨out :: m, ?_, ?_, ?_⟩
      · simp only [maybeSendPacketsLoop, if_pos h, List.cons_append]
        rw [← h1]
      · simp only [maybeSendPacketsLoop, if_pos h, idsOf, List.map_cons, List.cons_append]
        rw [h]
        congr 1
      · simp only [maybeSendPacketsLoop, if_pos h]
        rw [h3]
        simp
    · exact ⟨[], by simp [maybeSendPacketsLoop, if_neg h, idsOf]⟩

theorem maybeSendPacketsLoop_match (sender : packetSender) :
    ∀ (ins : List Nat) (outs sent : List responsePacket),
      (maybeSendPacketsLoop sender ins outs sent).1 = [] ∨
      (maybeSendPacketsLoop sender ins outs sent).2.1 = [] ∨
      (maybeSendPacketsLoop sender ins outs sent).1.head? ≠
        (idsOf (maybeSendPacketsLoop sender ins outs sent).2.1).head?
  | [], outs, sent => Or.inl (by simp [maybeSendPacketsLoop])
  | i :: ins, [], sent => Or.inr (Or.inl (by simp [maybeSendPacketsLoop]))
  | i :: ins, out :: outs, sent => by
    by_cases h : i = out.id
    · simp only [maybeSendPacketsLoop, if_pos h]
      exact maybeSendPacketsLoop_match sender ins outs (sent ++ [out])
    · simp only [maybeSendPacketsLoop, if_neg h]
      right; right
      simpa [idsOf] using h

theorem maybeSendPacketsLoop_sender (sender sender2 : packetSender) :
    ∀ (ins : List Nat) (outs sent : List responsePacket),
      maybeSendPacketsLoop sender ins outs sent = maybeSendPacketsLoop sender2 ins outs sent
  | [], outs, sent => by simp [maybeSendPacketsLoop]
  | i :: ins, [], sent => by simp [maybeSendPacketsLoop]
  | i :: ins, out :: outs, sent => by
    by_cases h : i = out.id
    · simp only [maybeSendPacketsLoop, if_pos h]
      exact maybeSendPacketsLoop_sender sender sender2 ins outs (sent ++ [out])
    · simp only [maybeSendPacketsLoop, if_neg h]

/-! ## Event lists and sorted lists -/

theorem tokensOf_append (xs ys : List Event) :
    tokensOf (xs ++ ys) = tokensOf xs ++ tokensOf ys := by
  induction xs with
  | nil => rfl
  | cons e xs ih => cases e <;> simp [tokensOf, ih]

theorem packetsOf_append (xs ys : List Event) :
    packetsOf (xs ++ ys) = packetsOf xs ++ packetsOf ys := by
  induction xs with
  | nil => rfl
  | cons e xs ih => cases e <;> simp [packetsOf, ih]

theorem idsOf_append (xs ys : List responsePacket) :
    idsOf (xs ++ ys) = idsOf xs ++ idsOf ys := by
  simp [idsOf]

theorem ascending_perm_eq {l₁ l₂ : List Nat} (hp : l₁.Perm l₂)
    (h₁ : l₁.Pairwise (fun a b => a ≤ b)) (h₂ : l₂.Pairwise (fun a b => a ≤ b)) :
    l₁ = l₂ :=
  List.eq_of_perm_of_sorted hp h₁ h₂

theorem ascending_of_increasing {l : List Nat} (h : l.Pairwise (fun a b => a < b)) :
    l.Pairwise (fun a b => a ≤ b) :=
  h.imp (fun hab => Nat.le_of_lt hab)

theorem ordered_perm_eq_of_increasing :
    ∀ {l₁ l₂ : List responsePacket}, l₁.Perm l₂ →
      l₁.Pairwise (fun a b => a.id ≤ b.id) → l₂.Pairwise (fun a b => a.id < b.id) → l₁ = l₂
  | [], l₂, hp, _, _ => (List.Perm.nil_eq hp)
  | b :: t₁, [], hp, _, _ => absurd hp.length_eq (by simp)
  | b :: t₁, a :: t₂, hp, h₁, h₂ => by
    have hb : b ∈ a :: t₂ := hp.subset (List.mem_cons_self _ _)
    have hab : b = a := by
      rcases List.mem_cons.1 hb with h | h
      · exact h
      · have hlt : a.id < b.id := (List.pairwise_cons.1 h₂).1 b h
        have ha : a ∈ b :: t₁ := hp.symm.subset (List.mem_cons_self _ _)
        rcases List.mem_cons.1 ha with h3 | h3
        · exact h3.symm
        · have hle : b.id ≤ a.id := (List.pairwise_cons.1 h₁).1 a h3
          omega
    subst hab
    have ht : t₁ = t₂ :=
      ordered_perm_eq_of_increasing ((List.perm_cons b).1 hp)
        (List.pairwise_cons.1 h₁).2 (List.pairwise_cons.1 h₂).2
    rw [ht]

/-! ## One turn of the worker -/

theorem workerStep_id (S : SliceSort) (sender : packetSender) (s : packetSync) (n : Nat)
    (hrun : s.running = true) :
    workerStep S sender s (Event.id n) =
      { incoming := (maybeSendPacketsLoop sender
          (S.run (fun a b => decide (a < b)) (s.incoming ++ [n])) s.outgoing s.sent).1,
        outgoing := (maybeSendPacketsLoop sender
          (S.run (fun a b => decide (a < b)) (s.incoming ++ [n])) s.outgoing s.sent).2.1,
        sent := (maybeSendPacketsLoop sender
          (S.run (fun a b => decide (a < b)) (s.incoming ++ [n])) s.outgoing s.sent).2.2,
        running := true } := by
  simp [workerStep, hrun, maybeSendPackets]

theorem workerStep_pkt (S : SliceSort) (sender : packetSender) (s : packetSync)
    (p : responsePacket) (hrun : s.running = true) :
    workerStep S sender s (Event.pkt p) =
      { incoming := (maybeSendPacketsLoop sender s.incoming
          (S.run (fun a b => decide (a.id < b.id)) (s.outgoing ++ [p])) s.sent).1,
        outgoing := (maybeSendPacketsLoop sender s.incoming
          (S.run (fun a b => decide (a.id < b.id)) (s.outgoing ++ [p])) s.sent).2.1,
        sent := (maybeSendPacketsLoop sender s.incoming
          (S.run (fun a b => decide (a.id < b.id)) (s.outgoing ++ [p])) s.sent).2.2,
        running := true } := by
  simp [workerStep, hrun, maybeSendPackets]

theorem Reached.step_id (S : SliceSort) (sender : packetSender) {evs : List Event}
    {s : packetSync} {new : List responsePacket} (h : Reached evs s new) (n : Nat) :
    ∃ m, (workerStep S sender s (Event.id n)).sent = s.sent ++ m ∧
      Reached (evs ++ [Event.id n]) (workerStep S sender s (Event.id n)) (new ++ m) := by
  have hperm : (S.run (fun a b => decide (a < b)) (s.incoming ++ [n])).Perm
      (s.incoming ++ [n]) := S.perm _ _
  have hsorted : (S.run (fun a b => decide (a < b)) (s.incoming ++ [n])).Pairwise
      (fun a b => a ≤ b) := S.ordered (fun x => x) _
  obtain ⟨m, h1, h2, h3⟩ := maybeSendPacketsLoop_split sender
    (S.run (fun a b => decide (a < b)) (s.incoming ++ [n])) s.outgoing s.sent
  have hm := maybeSendPacketsLoop_match sender
    (S.run (fun a b => decide (a < b)) (s.incoming ++ [n])) s.outgoing s.sent
  rw [workerStep_id S sender s n h.running]
  generalize maybeSendPacketsLoop sender
    (S.run (fun a b => decide (a < b)) (s.incoming ++ [n])) s.outgoing s.sent = r at h1 h2 h3 hm
  generalize S.run (fun a b => decide (a < b)) (s.incoming ++ [n]) = inc at hperm hsorted h2
  refine ⟨m, h3, ?_⟩
  have htok : tokensOf (evs ++ [Event.id n]) = tokensOf evs ++ [n] := by
    simp [tokensOf_append, tokensOf]
  have hpk : packetsOf (evs ++ [Event.id n]) = packetsOf evs := by
    simp [packetsOf_append, packetsOf]
  refine ⟨rfl, ?_, ?_, ?_, ?_, hm, ?_, ?_⟩
  · show (packetsOf (evs ++ [Event.id n])).Perm (new ++ m ++ r.2.1)
    rw [hpk, List.append_assoc, ← h1]
    exact h.packets
  · show (tokensOf (evs ++ [Event.id n])).Perm (idsOf (new ++ m) ++ r.1)
    rw [htok, idsOf_append, List.append_assoc, ← h2]
    have h4 : (tokensOf evs ++ [n]).Perm (idsOf new ++ s.incoming ++ [n]) :=
      List.Perm.append_right [n] h.tokens
    rw [List.append_assoc] at h4
    exact h4.trans (List.Perm.append_left _ hperm.symm)
  · show r.1.Pairwise (fun a b => a ≤ b)
    rw [h2] at hsorted
    exact (List.pairwise_append.1 hsorted).2.1
  · show r.2.1.Pairwise (fun a b => a.id ≤ b.id)
    have h5 := h.outSorted
    rw [h1] at h5
    exact (List.pairwise_append.1 h5).2.1
  · intro hinc
    show tokensOf (evs ++ [Event.id n]) = idsOf (new ++ m) ++ r.1
    rw [htok] at hinc ⊢
    have h6 := h.tokensInOrder (List.pairwise_append.1 hinc).1
    rw [h6, List.append_assoc] at hinc
    have h7 : inc = s.incoming ++ [n] :=
      ascending_perm_eq hperm hsorted (ascending_of_increasing (List.pairwise_append.1 hinc).2.1)
    rw [idsOf_append, List.append_assoc, ← h2, h7, h6, List.append_assoc]
  · intro hinc
    show packetsOf (evs ++ [Event.id n]) = new ++ m ++ r.2.1
    rw [hpk] at hinc ⊢
    rw [List.append_assoc, ← h1]
    exact h.packetsInOrder hinc

theorem Reached.step_pkt (S : SliceSort) (sender : packetSender) {evs : List Event}
    {s : packetSync} {new : List responsePacket} (h : Reached evs s new) (p : responsePacket) :
    ∃ m, (workerStep S sender s (Event.pkt p)).sent = s.sent ++ m ∧
      Reached (evs ++ [Event.pkt p]) (workerStep S sender s (Event.pkt p)) (new ++ m) := by
  have hperm : (S.run (fun a b => decide (a.id < b.id)) (s.outgoing ++ [p])).Perm
      (s.outgoing ++ [p]) := S.perm _ _
  have hsorted : (S.run (fun a b => decide (a.id < b.id)) (s.outgoing ++ [p])).Pairwise
      (fun a b => a.id ≤ b.id) := S.ordered responsePacket.id _
  obtain ⟨m, h1, h2, h3⟩ := maybeSendPacketsLoop_split sender s.incoming
    (S.run (fun a b => decide (a.id < b.id)) (s.outgoing ++ [p])) s.sent
  have hm := maybeSendPacketsLoop_match sender s.incoming
    (S.run (fun a b => decide (a.id < b.id)) (s.outgoing ++ [p])) s.sent
  rw [workerStep_pkt S sender s p h.running]
  generalize maybeSendPacketsLoop sender s.incoming
    (S.run (fun a b => decide (a.id < b.id)) (s.outgoing ++ [p])) s.sent = r at h1 h2 h3 hm
  generalize S.run (fun a b => decide (a.id < b.id)) (s.outgoing ++ [p]) = out at hperm hsorted h1
  refine ⟨m, h3, ?_⟩
  have htok : tokensOf (evs ++ [Event.pkt p]) = tokensOf evs := by
    simp [tokensOf_append, tokensOf]
  have hpk : packetsOf (evs ++ [Event.pkt p]) = packetsOf evs ++ [p] := by
    simp [packetsOf_append, packetsOf]
  refine ⟨rfl, ?_, ?_, ?_, ?_, hm, ?_, ?_⟩
  · show (packetsOf (evs ++ [Event.pkt p])).Perm (new ++ m ++ r.2.1)
    rw [hpk, List.append_assoc, ← h1]
    have h4 : (packetsOf evs ++ [p]).Perm (new ++ s.outgoing ++ [p]) :=
      List.Perm.append_right [p] h.packets
    rw [List.append_assoc] at h4
    exact h4.trans (List.Perm.append_left _ hperm.symm)
  · show (tokensOf (evs ++ [Event.pkt p])).Perm (idsOf (new ++ m) ++ r.1)
    rw [htok, idsOf_append, List.append_assoc, ← h2]
    exact h.tokens
  · show r.1.Pairwise (fun a b => a ≤ b)
    have h5 := h.incSorted
    rw [h2] at h5
    exact (List.pairwise_append.1 h5).2.1
  · show r.2.1.Pairwise (fun a b => a.id ≤ b.id)
    rw [h1] at hsorted
    exact (List.pairwise_append.1 hsorted).2.1
  · intro hinc
    show tokensOf (evs ++ [Event.pkt p]) = idsOf (new ++ m) ++ r.1
    rw [htok] at hinc ⊢
    rw [idsOf_append, List.append_assoc, ← h2]
    exact h.tokensInOrder hinc
  · intro hinc
    show packetsOf (evs ++ [Event.pkt p]) = new ++ m ++ r.2.1
    rw [hpk] at hinc ⊢
    rw [idsOf_append] at hinc
    have h6 := h.packetsInOrder (List.pairwise_append.1 hinc).1
    rw [← idsOf_append, h6, List.append_assoc] at hinc
    have h8 : (s.outgoing ++ [p]).Pairwise (fun a b => a.id < b.id) := by
      have h9 := (List.pairwise_append.1 (List.pairwise_map.1 hinc)).2.1
      exact h9
    have h7 : out = s.outgoing ++ [p] := ordered_perm_eq_of_increasing hperm hsorted h8
    rw [List.append_assoc, ← h1, h7, h6, List.append_assoc]

/-! ## Runs of the worker -/

theorem worker_append (S : SliceSort) (sender : packetSender) (s : packetSync)
    (evs : List Event) (e : Event) :
    worker S sender s (evs ++ [e]) = workerStep S sender (worker S sender s evs) e := by
  simp [worker, List.foldl_append]

theorem worker_reached (S : SliceSort) (sender : packetSender) (sent0 : List responsePacket)
    (evs : List Event) (hfini : Event.fini ∉ evs) :
    ∃ new, (worker S sender ⟨[], [], sent0, true⟩ evs).sent = sent0 ++ new ∧
      Reached evs (worker S sender ⟨[], [], sent0, true⟩ evs) new := by
  induction evs using List.reverseRecOn with
  | nil =>
    refine ⟨[], by simp [worker], ⟨rfl, ?_, ?_, ?_, ?_, ?_, ?_, ?_⟩⟩ <;>
      simp [worker, packetsOf, tokensOf, idsOf, MatchInvariant]
  | append_singleton xs e ih =>
    have hxs : Event.fini ∉ xs := fun h => hfini (List.mem_append_left _ h)
    have he : e ≠ Event.fini := fun h => hfini (by simp [h])
    obtain ⟨new, hsent, hr⟩ := ih hxs
    rw [worker_append]
    cases e with
    | id n =>
      obtain ⟨m, hm, hr2⟩ := hr.step_id S sender n
      exact ⟨new ++ m, by rw [hm, hsent, List.append_assoc], hr2⟩
    | pkt p =>
      obtain ⟨m, hm, hr2⟩ := hr.step_pkt S sender p
      exact ⟨new ++ m, by rw [hm, hsent, List.append_assoc], hr2⟩
    | fini => exact absurd rfl he

theorem worker_reached_fresh (S : SliceSort) (sender : packetSender)
    (evs : List Event) (hfini : Event.fini ∉ evs) :
    Reached evs (worker S sender newpSync evs) (worker S sender newpSync evs).sent := by
  obtain ⟨new, hsent, hr⟩ := worker_reached S sender [] evs hfini
  have h : (worker S sender newpSync evs).sent = new := by
    simpa [newpSync] using hsent
  rw [h]
  exact hr

theorem Reached.complete {evs : List Event} {s : packetSync} {new : List responsePacket}
    (h : Reached evs s new) (hperm : (idsOf (packetsOf evs)).Perm (tokensOf evs)) :
    s.incoming = [] ∧ s.outgoing = [] := by
  have h1 : (idsOf (packetsOf evs)).Perm (idsOf new ++ idsOf s.outgoing) := by
    rw [← idsOf_append]
    exact List.Perm.map _ h.packets
  have h2 : (idsOf new ++ idsOf s.outgoing).Perm (idsOf new ++ s.incoming) :=
    h1.symm.trans (hperm.trans h.tokens)
  have h3 : (idsOf s.outgoing).Perm s.incoming := (List.perm_append_left_iff _).1 h2
  have h4 : idsOf s.outgoing = s.incoming :=
    ascending_perm_eq h3 (List.pairwise_map.2 h.outSorted) h.incSorted
  rcases h.matchInv with h5 | h5 | h5
  · refine ⟨h5, ?_⟩
    rw [h5] at h4
    simpa [idsOf] using h4
  · refine ⟨?_, h5⟩
    rw [h5] at h4
    simpa [idsOf] using h4.symm
  · exact absurd (by rw [h4]) h5

/-! ## The order of releases -/

/-- C1, as stated, is refuted: not every sequence of submissions is released in
strictly increasing order of identifier.  On the run of `TestPacketSync` (two
tables on one coordinator) the identifiers handed to `sendPacket` are
`0,1,2,3,0,1,2,3,4`. -/
theorem order_invariant_unconditional_fails :
    ¬ ∀ (S : SliceSort) (sender : packetSender) (evs : List Event), Event.fini ∉ evs →
      (idsOf (worker S sender newpSync evs).sent).Pairwise (fun a b => a < b) := by
  intro h
  have h1 := h insertionSlice okSender testRun (by decide)
  revert h1
  decide

/-- C1, amended: when the identifiers are submitted in strictly increasing
order, or the packets are submitted in strictly increasing order of identifier,
then whatever the other stream and the interleaving, the packets handed to
`sendPacket` are strictly increasing by identifier. -/
theorem order_invariant_of_increasing_submissions (S : SliceSort) (sender : packetSender)
    (evs : List Event) (hfini : Event.fini ∉ evs)
    (hinc : (tokensOf evs).Pairwise (fun a b => a < b) ∨
      (idsOf (packetsOf evs)).Pairwise (fun a b => a < b)) :
    (idsOf (worker S sender newpSync evs).sent).Pairwise (fun a b => a < b) := by
  have hr := worker_reached_fresh S sender evs hfini
  rcases hinc with h | h
  · have h1 := hr.tokensInOrder h
    rw [h1] at h
    exact (List.pairwise_append.1 h).1
  · have h1 := hr.packetsInOrder h
    rw [h1, idsOf_append] at h
    exact (List.pairwise_append.1 h).1

/-- The second table of the test, on a fresh coordinator: identifiers in increasing
order, packets scrambled. -/
theorem order_invariant_of_increasing_submissions_witness :
    Event.fini ∉ tableEvents [0, 1, 2, 3, 4] [0, 4, 1, 3, 2] ∧
    (tokensOf (tableEvents [0, 1, 2, 3, 4] [0, 4, 1, 3, 2])).Pairwise (fun a b => a < b) ∧
    (idsOf (worker insertionSlice okSender newpSync
      (tableEvents [0, 1, 2, 3, 4] [0, 4, 1, 3, 2])).sent).Pairwise (fun a b => a < b) :=
  ⟨by decide, by decide,
    order_invariant_of_increasing_submissions insertionSlice okSender
      (tableEvents [0, 1, 2, 3, 4] [0, 4, 1, 3, 2]) (by decide) (Or.inl (by decide))⟩

/-- C2: from empty pending slices (whatever was sent before), when the
identifiers `0,…,n-1` are received in that order and the packets received carry
a rearrangement of `0,…,n-1`, in any interleaving of the two streams, the
packets handed to `sendPacket` are the submitted ones, with identifiers
`0,…,n-1` in that order, and both pending slices are empty afterwards. -/
theorem tables_released_in_order (S : SliceSort) (sender : packetSender) (n : Nat)
    (sent0 : List responsePacket) (evs : List Event) (hfini : Event.fini ∉ evs)
    (htok : tokensOf evs = List.range n)
    (hpk : (idsOf (packetsOf evs)).Perm (List.range n)) :
    ∃ new, worker S sender ⟨[], [], sent0, true⟩ evs = ⟨[], [], sent0 ++ new, true⟩ ∧
      idsOf new = List.range n ∧ new.Perm (packetsOf evs) := by
  obtain ⟨new, hsent, hr⟩ := worker_reached S sender sent0 evs hfini
  have hc := hr.complete (by rw [htok]; exact hpk)
  have hord := hr.tokensInOrder (by rw [htok]; exact List.pairwise_lt_range n)
  have hp := hr.packets
  have hrun := hr.running
  rw [hc.1, List.append_nil, htok] at hord
  rw [hc.2, List.append_nil] at hp
  refine ⟨new, ?_, hord.symm, hp.symm⟩
  generalize worker S sender ⟨[], [], sent0, true⟩ evs = s at hsent hc hrun
  cases s
  simp only [packetSync.mk.injEq]
  exact ⟨hc.1, hc.2, hsent, hrun⟩

/-- Both tables of `TestPacketSync`, the second one run after the first has been
sent. -/
theorem tables_released_in_order_witness :
    (∃ new, worker insertionSlice okSender ⟨[], [], [], true⟩
        (tableEvents [0, 1, 2, 3] [0, 1, 2, 3]) = ⟨[], [], [] ++ new, true⟩ ∧
      idsOf new = List.range 4 ∧
      new.Perm (packetsOf (tableEvents [0, 1, 2, 3] [0, 1, 2, 3]))) ∧
    (∃ new, worker insertionSlice okSender
        ⟨[], [], [fakepacket 0, fakepacket 1, fakepacket 2, fakepacket 3], true⟩
        (tableEvents [0, 1, 2, 3, 4] [0, 4, 1, 3, 2]) =
          ⟨[], [], [fakepacket 0, fakepacket 1, fakepacket 2, fakepacket 3] ++ new, true⟩ ∧
      idsOf new = List.range 5 ∧
      new.Perm (packetsOf (tableEvents [0, 1, 2, 3, 4] [0, 4, 1, 3, 2]))) :=
  ⟨tables_released_in_order insertionSlice okSender 4 []
      (tableEvents [0, 1, 2, 3] [0, 1, 2, 3]) (by decide) (by decide) (by decide),
    tables_released_in_order insertionSlice okSender 5
      [fakepacket 0, fakepacket 1, fakepacket 2, fakepacket 3]
      (tableEvents [0, 1, 2, 3, 4] [0, 4, 1, 3, 2]) (by decide) (by decide) (by decide)⟩

/-- C3, completeness: when the identifiers of the submitted packets are a
rearrangement of the submitted identifiers, then after all events both pending
slices are empty and the packets handed to `sendPacket` are, as a multiset, the
submitted packets; in particular every submitted packet has been sent. -/
theorem completeness (S : SliceSort) (sender : packetSender) (evs : List Event)
    (hfini : Event.fini ∉ evs) (hperm : (idsOf (packetsOf evs)).Perm (tokensOf evs)) :
    (worker S sender newpSync evs).incoming = [] ∧
    (worker S sender newpSync evs).outgoing = [] ∧
    (worker S sender newpSync evs).sent.Perm (packetsOf evs) ∧
    ∀ p ∈ packetsOf evs, p ∈ (worker S sender newpSync evs).sent := by
  have hr := worker_reached_fresh S sender evs hfini
  have hc := hr.complete hperm
  have hp := hr.packets
  rw [hc.2, List.append_nil] at hp
  exact ⟨hc.1, hc.2, hp.symm, fun p hmem => hp.subset hmem⟩

/-- Identifiers `3,5` and packets `5,3`, both streams out of order. -/
theorem completeness_witness :
    Event.fini ∉ [Event.pkt (fakepacket 5), Event.id 3, Event.id 5, Event.pkt (fakepacket 3)] ∧
    (worker insertionSlice okSender newpSync
      [Event.pkt (fakepacket 5), Event.id 3, Event.id 5, Event.pkt (fakepacket 3)]).incoming
        = [] ∧
    (worker insertionSlice okSender newpSync
      [Event.pkt (fakepacket 5), Event.id 3, Event.id 5, Event.pkt (fakepacket 3)]).outgoing
        = [] ∧
    (worker insertionSlice okSender newpSync
      [Event.pkt (fakepacket 5), Event.id 3, Event.id 5, Event.pkt (fakepacket 3)]).sent.Perm
        [fakepacket 5, fakepacket 3] :=
  have h := completeness insertionSlice okSender
    [Event.pkt (fakepacket 5), Event.id 3, Event.id 5, Event.pkt (fakepacket 3)]
    (by decide) (by decide)
  ⟨by decide, h.1, h.2.1, h.2.2.1⟩

/-- C4, conservation: after any run of identifier and packet events, the
multiset of packets submitted is the multiset of packets handed to `sendPacket`
plus the multiset of pending packets, and the multiset of identifiers submitted
is the multiset of identifiers of the sent packets plus the multiset of pending
identifiers.  Hence no packet is sent more often than it was submitted. -/
theorem conservation (S : SliceSort) (sender : packetSender) (evs : List Event)
    (hfini : Event.fini ∉ evs) :
    ((packetsOf evs : List responsePacket) : Multiset responsePacket) =
      ((worker S sender newpSync evs).sent : Multiset responsePacket) +
        ((worker S sender newpSync evs).outgoing : Multiset responsePacket) ∧
    ((tokensOf evs : List Nat) : Multiset Nat) =
      ((idsOf (worker S sender newpSync evs).sent : List Nat) : Multiset Nat) +
        ((worker S sender newpSync evs).incoming : Multiset Nat) ∧
    ∀ p, (worker S sender newpSync evs).sent.count p ≤ (packetsOf evs).count p := by
  have hr := worker_reached_fresh S sender evs hfini
  refine ⟨?_, ?_, ?_⟩
  · rw [Multiset.coe_add, Multiset.coe_eq_coe]
    exact hr.packets
  · rw [Multiset.coe_add, Multiset.coe_eq_coe]
    exact hr.tokens
  · intro p
    rw [hr.packets.count_eq p, List.count_append]
    exact Nat.le_add_right _ _

/-- A run that leaves one identifier and one packet pending. -/
theorem conservation_witness :
    Event.fini ∉ [Event.id 1, Event.pkt (fakepacket 2), Event.pkt (fakepacket 1), Event.id 4] ∧
    ∀ p, (worker insertionSlice okSender newpSync
      [Event.id 1, Event.pkt (fakepacket 2), Event.pkt (fakepacket 1), Event.id 4]).sent.count p
        ≤ (packetsOf
          [Event.id 1, Event.pkt (fakepacket 2), Event.pkt (fakepacket 1), Event.id 4]).count p :=
  ⟨by decide, (conservation insertionSlice okSender
    [Event.id 1, Event.pkt (fakepacket 2), Event.pkt (fakepacket 1), Event.id 4]
    (by decide)).2.2⟩

/-! ## Invariants of the pending slices -/

theorem maybeSendPackets_matchInvariant (sender : packetSender) (s : packetSync) :
    MatchInvariant (maybeSendPackets sender s) :=
  maybeSendPacketsLoop_match sender s.incoming s.outgoing s.sent

theorem workerStep_matchInvariant (S : SliceSort) (sender : packetSender) (s : packetSync)
    (e : Event) (h : MatchInvariant s) : MatchInvariant (workerStep S sender s e) := by
  unfold workerStep
  by_cases hrun : s.running = true
  · rw [if_pos hrun]
    cases e with
    | id n => exact maybeSendPackets_matchInvariant sender _
    | pkt p => exact maybeSendPackets_matchInvariant sender _
    | fini => exact h
  · rw [if_neg hrun]
    exact h

theorem worker_matchInvariant (S : SliceSort) (sender : packetSender) (evs : List Event) :
    ∀ s : packetSync, MatchInvariant s → MatchInvariant (worker S sender s evs) := by
  induction evs with
  | nil => intro s h; exact h
  | cons e evs ih =>
    intro s h
    exact ih _ (workerStep_matchInvariant S sender s e h)

/-- C5, MatchInvariant: whatever the state `maybeSendPackets` is run on, when it
returns a pending slice is empty or the first pending identifier differs from
the identifier of the first pending packet; and so it is in every state the
worker reaches from a fresh coordinator. -/
theorem match_invariant (S : SliceSort) (sender : packetSender) :
    (∀ s : packetSync, MatchInvariant (maybeSendPackets sender s)) ∧
    ∀ evs : List Event, MatchInvariant (worker S sender newpSync evs) :=
  ⟨maybeSendPackets_matchInvariant sender,
    fun evs => worker_matchInvariant S sender evs newpSync (Or.inl rfl)⟩

theorem maybeSendPackets_ascending (sender : packetSender) (s : packetSync)
    (hi : s.incoming.Pairwise (fun a b => a ≤ b))
    (ho : s.outgoing.Pairwise (fun a b => a.id ≤ b.id)) :
    (maybeSendPackets sender s).incoming.Pairwise (fun a b => a ≤ b) ∧
    (maybeSendPackets sender s).outgoing.Pairwise (fun a b => a.id ≤ b.id) := by
  obtain ⟨m, h1, h2, _⟩ := maybeSendPacketsLoop_split sender s.incoming s.outgoing s.sent
  rw [h2] at hi
  rw [h1] at ho
  exact ⟨(List.pairwise_append.1 hi).2.1, (List.pairwise_append.1 ho).2.1⟩

/-- C6, sortedness: in every state reached from a fresh coordinator by
identifier and packet events the pending identifiers are ascending and the
pending packets are ascending by identifier; `maybeSendPackets` keeps both
slices ascending; and when the submitted identifiers are pairwise distinct the
pending identifiers are strictly increasing. -/
theorem sortedness_invariant (S : SliceSort) (sender : packetSender) (evs : List Event)
    (hfini : Event.fini ∉ evs) :
    (worker S sender newpSync evs).incoming.Pairwise (fun a b => a ≤ b) ∧
    (worker S sender newpSync evs).outgoing.Pairwise (fun a b => a.id ≤ b.id) ∧
    (∀ s : packetSync, s.incoming.Pairwise (fun a b => a ≤ b) →
      s.outgoing.Pairwise (fun a b => a.id ≤ b.id) →
      (maybeSendPackets sender s).incoming.Pairwise (fun a b => a ≤ b) ∧
      (maybeSendPackets sender s).outgoing.Pairwise (fun a b => a.id ≤ b.id)) ∧
    ((tokensOf evs).Nodup →
      (worker S sender newpSync evs).incoming.Pairwise (fun a b => a < b)) := by
  have hr := worker_reached_fresh S sender evs hfini
  refine ⟨hr.incSorted, hr.outSorted, maybeSendPackets_ascending sender, ?_⟩
  intro hnd
  have h1 : (worker S sender newpSync evs).incoming.Nodup :=
    ((hr.tokens.nodup_iff).1 hnd).of_append_right
  exact (hr.incSorted.and h1).imp (fun hab => Nat.lt_of_le_of_ne hab.1 hab.2)

/-- Distinct identifiers received out of order stay pending in strictly increasing
order. -/
theorem sortedness_invariant_witness :
    Event.fini ∉ [Event.id 9, Event.id 4, Event.pkt (fakepacket 7), Event.id 6] ∧
    (tokensOf [Event.id 9, Event.id 4, Event.pkt (fakepacket 7), Event.id 6]).Nodup ∧
    (worker insertionSlice okSender newpSync
      [Event.id 9, Event.id 4, Event.pkt (fakepacket 7), Event.id 6]).incoming = [4, 6, 9] ∧
    (worker insertionSlice okSender newpSync
      [Event.id 9, Event.id 4, Event.pkt (fakepacket 7), Event.id 6]).incoming.Pairwise
        (fun a b => a < b) :=
  ⟨by decide, by decide, by decide,
    (sortedness_invariant insertionSlice okSender
      [Event.id 9, Event.id 4, Event.pkt (fakepacket 7), Event.id 6] (by decide)).2.2.2
      (by decide)⟩

/-! ## The scenarios of the specification -/

/-- C7, scenario C: identifiers received in the order `2,0,1` and packets with
identifiers `0,1,2` received in that order, in any interleaving of the two
streams: the packets are handed to `sendPacket` in the order `0,1,2` (they are
the submitted packets, in their order of submission), and nothing stays
pending. -/
theorem scenario_scrambled_tokens (S : SliceSort) (sender : packetSender) (evs : List Event)
    (hfini : Event.fini ∉ evs) (htok : tokensOf evs = [2, 0, 1])
    (hpk : idsOf (packetsOf evs) = [0, 1, 2]) :
    idsOf (worker S sender newpSync evs).sent = [0, 1, 2] ∧
    (worker S sender newpSync evs).sent = packetsOf evs ∧
    (worker S sender newpSync evs).incoming = [] ∧
    (worker S sender newpSync evs).outgoing = [] := by
  have hr := worker_reached_fresh S sender evs hfini
  have hc := hr.complete (by rw [htok, hpk]; decide)
  have hord := hr.packetsInOrder (by rw [hpk]; decide)
  rw [hc.2, List.append_nil] at hord
  exact ⟨by rw [← hord, hpk], hord.symm, hc.1, hc.2⟩

/-- One interleaving of scenario C, packets and identifiers alternating. -/
theorem scenario_scrambled_tokens_witness :
    idsOf (worker insertionSlice okSender newpSync
      [Event.pkt (fakepacket 0), Event.id 2, Event.pkt (fakepacket 1), Event.id 0,
        Event.pkt (fakepacket 2), Event.id 1]).sent = [0, 1, 2] :=
  (scenario_scrambled_tokens insertionSlice okSender
    [Event.pkt (fakepacket 0), Event.id 2, Event.pkt (fakepacket 1), Event.id 0,
      Event.pkt (fakepacket 2), Event.id 1] (by decide) (by decide) (by decide)).1

theorem sort_singleton (S : SliceSort) {α : Type} (less : α → α → Bool) (a : α) :
    S.run less [a] = [a] :=
  List.perm_singleton.1 (S.perm less [a])

/-- C8, scenario D: on a fresh coordinator, once the identifiers `0,1` (in that
order) and one packet with identifier 0 have been received, in any
interleaving, `sendPacket` has been called exactly once, on that packet, the
pending identifiers are exactly `[1]` and no packet is pending; a packet with
identifier 1 received next causes exactly one more call, on it, and leaves both
pending slices empty. -/
theorem scenario_partial_drain (S : SliceSort) (sender : packetSender) (p0 p1 : responsePacket)
    (evs : List Event) (h0 : p0.id = 0) (h1 : p1.id = 1) (hfini : Event.fini ∉ evs)
    (htok : tokensOf evs = [0, 1]) (hpk : packetsOf evs = [p0]) :
    worker S sender newpSync evs = ⟨[1], [], [p0], true⟩ ∧
    worker S sender newpSync (evs ++ [Event.pkt p1]) = ⟨[], [], [p0, p1], true⟩ := by
  have hr := worker_reached_fresh S sender evs hfini
  have hord := hr.tokensInOrder (by rw [htok]; decide)
  have hp := hr.packets
  have hm := hr.matchInv
  have hrun := hr.running
  rw [htok] at hord
  rw [hpk] at hp
  have hfirst : worker S sender newpSync evs = ⟨[1], [], [p0], true⟩ := by
    generalize worker S sender newpSync evs = s at hord hp hm hrun
    obtain ⟨inc, out, sent, run⟩ := s
    simp only at hord hp hrun
    subst hrun
    cases sent with
    | nil =>
      simp only [List.nil_append, idsOf, List.map_nil] at hord hp
      have hout : [p0] = out := List.singleton_perm.1 hp
      subst hout
      subst hord
      exact absurd hm (by simp [MatchInvariant, idsOf, h0])
    | cons q rest =>
      have hlen := hp.length_eq
      simp only [List.length_cons, List.length_append, List.length_nil] at hlen
      have hrest : rest = [] := List.eq_nil_of_length_eq_zero (by omega)
      have hout : out = [] := List.eq_nil_of_length_eq_zero (by omega)
      subst hrest
      subst hout
      have hq : p0 = q := by simpa using hp
      subst hq
      simp only [idsOf, List.map_cons, List.map_nil, h0, List.cons_append, List.nil_append,
        List.cons.injEq, true_and] at hord
      rw [← hord]
  refine ⟨hfirst, ?_⟩
  rw [worker_append, hfirst, workerStep_pkt S sender _ p1 rfl]
  simp [sort_singleton, maybeSendPacketsLoop, h1]

/-- One interleaving of scenario D, the packet received between the two
identifiers. -/
theorem scenario_partial_drain_witness :
    worker insertionSlice okSender newpSync
        [Event.id 0, Event.pkt (fakepacket 0), Event.id 1] =
      ⟨[1], [], [fakepacket 0], true⟩ ∧
    worker insertionSlice okSender newpSync
        ([Event.id 0, Event.pkt (fakepacket 0), Event.id 1] ++ [Event.pkt (fakepacket 1)]) =
      ⟨[], [], [fakepacket 0, fakepacket 1], true⟩ :=
  scenario_partial_drain insertionSlice okSender (fakepacket 0) (fakepacket 1)
    [Event.id 0, Event.pkt (fakepacket 0), Event.id 1] rfl rfl (by decide) (by decide)
    (by decide)

/-! ## The value returned by the sender -/

theorem maybeSendPackets_sender (sender sender2 : packetSender) (s : packetSync) :
    maybeSendPackets sender s = maybeSendPackets sender2 s := by
  unfold maybeSendPackets
  rw [maybeSendPacketsLoop_sender sender sender2]

theorem workerStep_sender (S : SliceSort) (sender sender2 : packetSender) (s : packetSync)
    (e : Event) : workerStep S sender s e = workerStep S sender2 s e := by
  unfold workerStep
  cases e <;> simp only [maybeSendPackets_sender sender sender2]

theorem workerStep_stopped (S : SliceSort) (sender : packetSender) (s : packetSync)
    (e : Event) (h : s.running = false) : workerStep S sender s e = s := by
  simp [workerStep, h]

theorem worker_stopped (S : SliceSort) (sender : packetSender) (evs : List Event) :
    ∀ s : packetSync, s.running = false → worker S sender s evs = s := by
  induction evs with
  | nil => intro s _; rfl
  | cons e evs ih =>
    intro s h
    show worker S sender (workerStep S sender s e) evs = s
    rw [workerStep_stopped S sender s e h]
    exact ih s h

theorem workerStep_fini_running (S : SliceSort) (sender : packetSender) (s : packetSync) :
    (workerStep S sender s Event.fini).running = false := by
  unfold workerStep
  cases h : s.running <;> simp [h]

theorem worker_running_after_fini (S : SliceSort) (sender : packetSender) (s : packetSync)
    (pre post : List Event) :
    (worker S sender s (pre ++ Event.fini :: post)).running = false := by
  have h : worker S sender s (pre ++ Event.fini :: post) =
      worker S sender (workerStep S sender (worker S sender s pre) Event.fini) post := by
    simp [worker, List.foldl_append]
  rw [h, worker_stopped S sender post _ (workerStep_fini_running S sender _)]
  exact workerStep_fini_running S sender _

theorem coordinatorStep_stopped (S : SliceSort) (sender : packetSender) (c : Coordinator)
    (a : Action) (h : c.sync.running = false) :
    (coordinatorStep S sender c a).sync = c.sync ∧
    (coordinatorStep S sender c a).closed = c.closed ∧
    (coordinatorStep S sender c a).closing = c.closing + [a].count Action.close := by
  cases a with
  | close => simp [coordinatorStep]
  | receive e =>
    cases e with
    | id n => simp [coordinatorStep, workerStep_stopped S sender c.sync _ h]
    | pkt p => simp [coordinatorStep, workerStep_stopped S sender c.sync _ h]
    | fini => simp [coordinatorStep, h]

theorem coordinatorRun_stopped (S : SliceSort) (sender : packetSender) (acts : List Action) :
    ∀ c : Coordinator, c.sync.running = false →
      (coordinatorRun S sender c acts).sync = c.sync ∧
      (coordinatorRun S sender c acts).closed = c.closed ∧
      (coordinatorRun S sender c acts).closing = c.closing + acts.count Action.close := by
  induction acts with
  | nil => intro c _; exact ⟨rfl, rfl, rfl⟩
  | cons a acts ih =>
    intro c h
    obtain ⟨h1, h2, h3⟩ := coordinatorStep_stopped S sender c a h
    obtain ⟨h4, h5, h6⟩ := ih (coordinatorStep S sender c a) (by rw [h1]; exact h)
    show (coordinatorRun S sender (coordinatorStep S sender c a) acts).sync = c.sync ∧
      (coordinatorRun S sender (coordinatorStep S sender c a) acts).closed = c.closed ∧
      (coordinatorRun S sender (coordinatorStep S sender c a) acts).closing =
        c.closing + (a :: acts).count Action.close
    refine ⟨by rw [h4, h1], by rw [h5, h2], ?_⟩
    rw [h6, h3, List.count_cons, List.count_cons, List.count_nil]
    omega

/-- C10, as stated, is refuted: on a fresh coordinator a first call of `close`
returns once the worker has received the signal, and the worker returns; a
second call of `close` made then never returns, whatever happens afterwards: no
further call of `close` ever returns, and the second call stays among those
waiting on `fini`. -/
theorem second_close_blocks :
    coordinatorRun insertionSlice okSender newCoordinator
        [Action.close, Action.receive Event.fini] = ⟨⟨[], [], [], false⟩, 0, 1⟩ ∧
    ∀ acts : List Action,
      (coordinatorRun insertionSlice okSender newCoordinator
        ([Action.close, Action.receive Event.fini, Action.close] ++ acts)).closed = 1 ∧
      1 ≤ (coordinatorRun insertionSlice okSender newCoordinator
        ([Action.close, Action.receive Event.fini, Action.close] ++ acts)).closing := by
  refine ⟨by decide, fun acts => ?_⟩
  have h : coordinatorRun insertionSlice okSender newCoordinator
      ([Action.close, Action.receive Event.fini, Action.close] ++ acts) =
      coordinatorRun insertionSlice okSender ⟨⟨[], [], [], false⟩, 1, 1⟩ acts := by
    simp only [coordinatorRun, List.foldl_append]
    rfl
  obtain ⟨_, h2, h3⟩ :=
    coordinatorRun_stopped insertionSlice okSender acts ⟨⟨[], [], [], false⟩, 1, 1⟩ rfl
  rw [h, h2, h3]
  exact ⟨rfl, Nat.le_add_right _ _⟩

/-- C10, amended: a call of `close` made after the worker has received a
shutdown signal and returned does not complete.  Whatever happens afterwards,
no call of `close` returns any more, the worker's state stays as it is, and the
call stays waiting in its send on `fini`, together with every call of `close`
made after it. -/
theorem close_after_return_blocks (S : SliceSort) (sender : packetSender) (c : Coordinator)
    (acts : List Action) (h : c.sync.running = false) :
    (coordinatorRun S sender c (Action.close :: acts)).closed = c.closed ∧
    (coordinatorRun S sender c (Action.close :: acts)).closing =
      c.closing + 1 + acts.count Action.close ∧
    (coordinatorRun S sender c (Action.close :: acts)).sync = c.sync := by
  obtain ⟨h1, h2, h3⟩ := coordinatorRun_stopped S sender (Action.close :: acts) c h
  refine ⟨h2, ?_, h1⟩
  rw [h3, List.count_cons_self]
  omega

/-- After the first call of `close` has returned, a second call followed by a
packet, an identifier and a third call: one call has returned, two are waiting. -/
theorem close_after_return_blocks_witness :
    (coordinatorRun insertionSlice okSender newCoordinator
      [Action.close, Action.receive Event.fini]).sync.running = false ∧
    (coordinatorRun insertionSlice okSender
      (coordinatorRun insertionSlice okSender newCoordinator
        [Action.close, Action.receive Event.fini])
      (Action.close :: [Action.receive (Event.pkt (fakepacket 0)),
        Action.receive (Event.id 0), Action.close])).closed = 1 ∧
    (coordinatorRun insertionSlice okSender
      (coordinatorRun insertionSlice okSender newCoordinator
        [Action.close, Action.receive Event.fini])
      (Action.close :: [Action.receive (Event.pkt (fakepacket 0)),
        Action.receive (Event.id 0), Action.close])).closing = 2 :=
  have h := close_after_return_blocks insertionSlice okSender
    (coordinatorRun insertionSlice okSender newCoordinator
      [Action.close, Action.receive Event.fini])
    [Action.receive (Event.pkt (fakepacket 0)), Action.receive (Event.id 0), Action.close]
    (by decide)
  ⟨by decide, h.1, h.2.1⟩

/-! ## What one drain releases -/

theorem agreeUpTo_zero (ins : List Nat) (outs : List responsePacket) : AgreeUpTo 0 ins outs :=
  ⟨Nat.zero_le _, Nat.zero_le _, fun i hi => absurd hi (Nat.not_lt_zero i)⟩

theorem agreeUpTo_cons {k : Nat} {i : Nat} {ins : List Nat} {out : responsePacket}
    {outs : List responsePacket} :
    AgreeUpTo (k + 1) (i :: ins) (out :: outs) ↔ i = out.id ∧ AgreeUpTo k ins outs := by
  constructor
  · rintro ⟨h1, h2, h3⟩
    refine ⟨?_, ?_, ?_, ?_⟩
    · have h := h3 0 (Nat.succ_pos k)
      simpa using h
    · simpa using h1
    · simpa using h2
    · intro j hj
      have h := h3 (j + 1) (Nat.succ_lt_succ hj)
      simpa using h
  · rintro ⟨h0, h1, h2, h3⟩
    refine ⟨by simpa using h1, by simpa using h2, ?_⟩
    intro j hj
    cases j with
    | zero => simp [h0]
    | succ j => simpa using h3 j (Nat.lt_of_succ_lt_succ hj)

theorem maybeSendPacketsLoop_maximal (sender : packetSender) :
    ∀ (ins : List Nat) (outs sent : List responsePacket),
      ∃ k, AgreeUpTo k ins outs ∧ (∀ j, AgreeUpTo j ins outs → j ≤ k) ∧
        maybeSendPacketsLoop sender ins outs sent =
          (ins.drop k, outs.drop k, sent ++ outs.take k)
  | [], outs, sent =>
    ⟨0, agreeUpTo_zero _ _, fun j hj => by simpa using hj.1, by simp [maybeSendPacketsLoop]⟩
  | i :: ins, [], sent =>
    ⟨0, agreeUpTo_zero _ _, fun j hj => by simpa using hj.2.1, by simp [maybeSendPacketsLoop]⟩
  | i :: ins, out :: outs, sent => by
    by_cases h : i = out.id
    · obtain ⟨k, hk, hmax, hres⟩ := maybeSendPacketsLoop_maximal sender ins outs (sent ++ [out])
      refine ⟨k + 1, agreeUpTo_cons.2 ⟨h, hk⟩, ?_, ?_⟩
      · intro j hj
        cases j with
        | zero => exact Nat.zero_le _
        | succ j => exact Nat.succ_le_succ (hmax j (agreeUpTo_cons.1 hj).2)
      · simp only [maybeSendPacketsLoop, if_pos h, hres, List.drop_succ_cons,
          List.take_succ_cons, List.append_assoc, List.singleton_append]
    · refine ⟨0, agreeUpTo_zero _ _, ?_, by simp [maybeSendPacketsLoop, if_neg h]⟩
      intro j hj
      cases j with
      | zero => exact Nat.le_refl _
      | succ j => exact absurd (agreeUpTo_cons.1 hj).1 h

/-- C11: `maybeSendPackets` returns on every pair of pending lists, and with
`k` the largest number such that the first `k` identifiers and the first `k`
packets exist and agree position by position, it calls `sendPacket` exactly on
the first `k` pending packets, in their order, and leaves both pending lists
without their first `k` elements, the rest unchanged. -/
theorem drain_releases_maximal_matching_run (sender : packetSender) (s : packetSync) :
    ∃ k, AgreeUpTo k s.incoming s.outgoing ∧
      (∀ j, AgreeUpTo j s.incoming s.outgoing → j ≤ k) ∧
      maybeSendPackets sender s =
        { incoming := s.incoming.drop k, outgoing := s.outgoing.drop k,
          sent := s.sent ++ s.outgoing.take k, running := s.running } := by
  obtain ⟨k, hk, hmax, hres⟩ :=
    maybeSendPacketsLoop_maximal sender s.incoming s.outgoing s.sent
  refine ⟨k, hk, hmax, ?_⟩
  simp [maybeSendPackets, hres]

/-! ## Releases under identifiers submitted in increasing order -/

/-- C12: when the identifiers are submitted to a fresh coordinator in strictly
increasing order, then whatever the packets and the interleaving, after every
processed event (after every initial part `pre` of the run) the identifiers of
the packets sent so far are an initial part of the identifiers submitted so
far; hence they are strictly increasing and free of duplicates. -/
theorem releases_follow_tokens (S : SliceSort) (sender : packetSender)
    (pre post : List Event) (hfini : Event.fini ∉ pre ++ post)
    (hinc : (tokensOf (pre ++ post)).Pairwise (fun a b => a < b)) :
    idsOf (worker S sender newpSync pre).sent <+: tokensOf pre ∧
    (idsOf (worker S sender newpSync pre).sent).Pairwise (fun a b => a < b) ∧
    (idsOf (worker S sender newpSync pre).sent).Nodup := by
  have hpre : Event.fini ∉ pre := fun h => hfini (List.mem_append_left _ h)
  rw [tokensOf_append] at hinc
  have hincpre := (List.pairwise_append.1 hinc).1
  have hr := worker_reached_fresh S sender pre hpre
  have h1 := hr.tokensInOrder hincpre
  have h2 : (idsOf (worker S sender newpSync pre).sent).Pairwise (fun a b => a < b) := by
    rw [h1] at hincpre
    exact (List.pairwise_append.1 hincpre).1
  exact ⟨⟨_, h1.symm⟩, h2, h2.imp (fun hab => Nat.ne_of_lt hab)⟩

/-- The run of the second test table cut after the packet with identifier 4 has
arrived: only the packet 0 has been sent. -/
theorem releases_follow_tokens_witness :
    idsOf (worker insertionSlice okSender newpSync
      (tableEvents [0, 1, 2, 3, 4] [0, 4])).sent = [0] ∧
    idsOf (worker insertionSlice okSender newpSync
      (tableEvents [0, 1, 2, 3, 4] [0, 4])).sent <+: tokensOf (tableEvents [0, 1, 2, 3, 4] [0, 4]) :=
  ⟨by decide,
    (releases_follow_tokens insertionSlice okSender (tableEvents [0, 1, 2, 3, 4] [0, 4])
      (tableEvents [] [1, 3, 2]) (by decide) (by decide)).1⟩

/-! ## Which arrival ends a stall -/

theorem ascending_head_le {α : Type} (key : α → Nat) {h : α} {t : List α}
    (hs : (h :: t).Pairwise (fun a b => key a ≤ key b)) : ∀ y ∈ h :: t, key h ≤ key y := by
  intro y hy
  rcases List.mem_cons.1 hy with rfl | hy
  · exact Nat.le_refl _
  · exact (List.pairwise_cons.1 hs).1 y hy

theorem maybeSendPacketsLoop_differ (sender : packetSender) {i : Nat} {out : responsePacket}
    (h : i ≠ out.id) (ins : List Nat) (outs sent : List responsePacket) :
    (maybeSendPacketsLoop sender (i :: ins) (out :: outs) sent).2.2 = sent := by
  simp [maybeSendPacketsLoop, if_neg h]

theorem maybeSendPacketsLoop_agree (sender : packetSender) {i : Nat} {out : responsePacket}
    (h : i = out.id) (ins : List Nat) (outs sent : List responsePacket) :
    sent.length < (maybeSendPacketsLoop sender (i :: ins) (out :: outs) sent).2.2.length := by
  obtain ⟨m, _, _, h3⟩ := maybeSendPacketsLoop_split sender ins outs (sent ++ [out])
  simp only [maybeSendPacketsLoop, if_pos h, h3, List.length_append, List.length_singleton]
  omega

theorem workerStep_id_sent (S : SliceSort) (sender : packetSender) (s : packetSync) (n : Nat)
    (hrun : s.running = true) :
    (workerStep S sender s (Event.id n)).sent =
      (maybeSendPacketsLoop sender
        (S.run (fun a b => decide (a < b)) (s.incoming ++ [n])) s.outgoing s.sent).2.2 := by
  rw [workerStep_id S sender s n hrun]

theorem workerStep_pkt_sent (S : SliceSort) (sender : packetSender) (s : packetSync)
    (p : responsePacket) (hrun : s.running = true) :
    (workerStep S sender s (Event.pkt p)).sent =
      (maybeSendPacketsLoop sender s.incoming
        (S.run (fun a b => decide (a.id < b.id)) (s.outgoing ++ [p])) s.sent).2.2 := by
  rw [workerStep_pkt S sender s p hrun]

theorem stall_tokens_behind (S : SliceSort) (sender : packetSender) (s : packetSync)
    (hrun : s.running = true) {i : Nat} {ins : List Nat} {o : responsePacket}
    {outs : List responsePacket} (hi : s.incoming = i :: ins) (ho : s.outgoing = o :: outs)
    (hos : s.outgoing.Pairwise (fun a b => a.id ≤ b.id)) (hlt : i < o.id) :
    (∀ n, (workerStep S sender s (Event.id n)).sent = s.sent) ∧
    (∀ p, s.sent.length < (workerStep S sender s (Event.pkt p)).sent.length ↔ p.id = i) := by
  constructor
  · intro n
    rw [workerStep_id_sent S sender s n hrun]
    have hperm : (S.run (fun a b => decide (a < b)) (s.incoming ++ [n])).Perm
        (s.incoming ++ [n]) := S.perm _ _
    have hsorted : (S.run (fun a b => decide (a < b)) (s.incoming ++ [n])).Pairwise
        (fun a b => a ≤ b) := S.ordered (fun x => x) _
    generalize S.run (fun a b => decide (a < b)) (s.incoming ++ [n]) = inc at hperm hsorted
    cases inc with
    | nil => simp [maybeSendPacketsLoop]
    | cons h t =>
      have hmem : i ∈ h :: t := hperm.symm.subset (by simp [hi])
      have hle : h ≤ i := ascending_head_le (fun x => x) hsorted i hmem
      rw [ho]
      exact maybeSendPacketsLoop_differ sender (by omega) _ _ _
  · intro p
    rw [workerStep_pkt_sent S sender s p hrun]
    have hperm : (S.run (fun a b => decide (a.id < b.id)) (s.outgoing ++ [p])).Perm
        (s.outgoing ++ [p]) := S.perm _ _
    have hsorted : (S.run (fun a b => decide (a.id < b.id)) (s.outgoing ++ [p])).Pairwise
        (fun a b => a.id ≤ b.id) := S.ordered responsePacket.id _
    generalize S.run (fun a b => decide (a.id < b.id)) (s.outgoing ++ [p]) = out
      at hperm hsorted
    cases out with
    | nil => exact absurd hperm.length_eq (by simp)
    | cons h t =>
      have hp : p ∈ h :: t := hperm.symm.subset (by simp)
      have hle : h.id ≤ p.id := ascending_head_le responsePacket.id hsorted p hp
      have hh : h ∈ s.outgoing ++ [p] := hperm.subset (List.mem_cons_self _ _)
      have hcase : h = p ∨ o.id ≤ h.id := by
        rcases List.mem_append.1 hh with h1 | h1
        · right
          rw [ho] at hos h1
          exact ascending_head_le responsePacket.id hos h h1
        · left
          simpa using h1
      rw [hi]
      by_cases heq : i = h.id
      · have hlen := maybeSendPacketsLoop_agree sender heq ins t s.sent
        refine ⟨fun _ => ?_, fun _ => hlen⟩
        rcases hcase with h1 | h1
        · rw [← h1]; exact heq.symm
        · omega
      · rw [maybeSendPacketsLoop_differ sender heq]
        refine ⟨fun h1 => absurd h1 (Nat.lt_irrefl _), fun h1 => ?_⟩
        rcases hcase with h2 | h2
        · rw [h2] at heq; exact absurd h1.symm heq
        · omega

theorem stall_packets_behind (S : SliceSort) (sender : packetSender) (s : packetSync)
    (hrun : s.running = true) {i : Nat} {ins : List Nat} {o : responsePacket}
    {outs : List responsePacket} (hi : s.incoming = i :: ins) (ho : s.outgoing = o :: outs)
    (his : s.incoming.Pairwise (fun a b => a ≤ b)) (hlt : o.id < i) :
    (∀ p, (workerStep S sender s (Event.pkt p)).sent = s.sent) ∧
    (∀ n, s.sent.length < (workerStep S sender s (Event.id n)).sent.length ↔ n = o.id) := by
  constructor
  · intro p
    rw [workerStep_pkt_sent S sender s p hrun]
    have hperm : (S.run (fun a b => decide (a.id < b.id)) (s.outgoing ++ [p])).Perm
        (s.outgoing ++ [p]) := S.perm _ _
    have hsorted : (S.run (fun a b => decide (a.id < b.id)) (s.outgoing ++ [p])).Pairwise
        (fun a b => a.id ≤ b.id) := S.ordered responsePacket.id _
    generalize S.run (fun a b => decide (a.id < b.id)) (s.outgoing ++ [p]) = out
      at hperm hsorted
    cases out with
    | nil => simp [maybeSendPacketsLoop, hi]
    | cons h t =>
      have hmem : o ∈ h :: t := hperm.symm.subset (by simp [ho])
      have hle : h.id ≤ o.id := ascending_head_le responsePacket.id hsorted o hmem
      rw [hi]
      exact maybeSendPacketsLoop_differ sender (by omega) _ _ _
  · intro n
    rw [workerStep_id_sent S sender s n hrun]
    have hperm : (S.run (fun a b => decide (a < b)) (s.incoming ++ [n])).Perm
        (s.incoming ++ [n]) := S.perm _ _
    have hsorted : (S.run (fun a b => decide (a < b)) (s.incoming ++ [n])).Pairwise
        (fun a b => a ≤ b) := S.ordered (fun x => x) _
    generalize S.run (fun a b => decide (a < b)) (s.incoming ++ [n]) = inc at hperm hsorted
    cases inc with
    | nil => exact absurd hperm.length_eq (by simp)
    | cons h t =>
      have hn : n ∈ h :: t := hperm.symm.subset (by simp)
      have hle : h ≤ n := ascending_head_le (fun x => x) hsorted n hn
      have hh : h ∈ s.incoming ++ [n] := hperm.subset (List.mem_cons_self _ _)
      have hcase : h = n ∨ i ≤ h := by
        rcases List.mem_append.1 hh with h1 | h1
        · right
          rw [hi] at his h1
          exact ascending_head_le (fun x => x) his h h1
        · left
          simpa using h1
      rw [ho]
      by_cases heq : h = o.id
      · have hlen := maybeSendPacketsLoop_agree sender heq t outs s.sent
        refine ⟨fun _ => ?_, fun _ => hlen⟩
        rcases hcase with h1 | h1
        · rw [← h1]; exact heq
        · omega
      · rw [maybeSendPacketsLoop_differ sender heq]
        refine ⟨fun h1 => absurd h1 (Nat.lt_irrefl _), fun h1 => ?_⟩
        rcases hcase with h2 | h2
        · rw [h2] at heq; exact absurd h1 heq
        · omega

/-- C13: in a state reached from a fresh coordinator in which both pending
lists are non-empty, with `i` the first pending identifier and `o` the first
pending packet: when `i` is smaller than the identifier of `o`, no arriving
identifier causes a call to `sendPacket`, and an arriving packet causes at least
one call exactly when its identifier is `i`; and the same with the two sides
exchanged when the identifier of `o` is smaller than `i`. -/
theorem stall_needs_side_behind (S : SliceSort) (sender : packetSender) (evs : List Event)
    (hfini : Event.fini ∉ evs) (i : Nat) (ins : List Nat) (o : responsePacket)
    (outs : List responsePacket)
    (hi : (worker S sender newpSync evs).incoming = i :: ins)
    (ho : (worker S sender newpSync evs).outgoing = o :: outs) :
    (i < o.id →
      (∀ n, (workerStep S sender (worker S sender newpSync evs) (Event.id n)).sent =
        (worker S sender newpSync evs).sent) ∧
      (∀ p, (worker S sender newpSync evs).sent.length <
          (workerStep S sender (worker S sender newpSync evs) (Event.pkt p)).sent.length ↔
        p.id = i)) ∧
    (o.id < i →
      (∀ p, (workerStep S sender (worker S sender newpSync evs) (Event.pkt p)).sent =
        (worker S sender newpSync evs).sent) ∧
      (∀ n, (worker S sender newpSync evs).sent.length <
          (workerStep S sender (worker S sender newpSync evs) (Event.id n)).sent.length ↔
        n = o.id)) := by
  have hr := worker_reached_fresh S sender evs hfini
  exact ⟨fun hlt => stall_tokens_behind S sender _ hr.running hi ho hr.outSorted hlt,
    fun hlt => stall_packets_behind S sender _ hr.running hi ho hr.incSorted hlt⟩

/-- Identifier 1 pending against packet 2: no identifier releases anything, a
packet does exactly when its identifier is 1.  Identifier 2 pending against
packet 1: no packet releases anything. -/
theorem stall_needs_side_behind_witness :
    ((∀ n, (workerStep insertionSlice okSender
        (worker insertionSlice okSender newpSync [Event.id 1, Event.pkt (fakepacket 2)])
        (Event.id n)).sent =
      (worker insertionSlice okSender newpSync [Event.id 1, Event.pkt (fakepacket 2)]).sent) ∧
    (∀ p, (worker insertionSlice okSender newpSync
        [Event.id 1, Event.pkt (fakepacket 2)]).sent.length <
      (workerStep insertionSlice okSender
        (worker insertionSlice okSender newpSync [Event.id 1, Event.pkt (fakepacket 2)])
        (Event.pkt p)).sent.length ↔ p.id = 1)) ∧
    (∀ p, (workerStep insertionSlice okSender
        (worker insertionSlice okSender newpSync [Event.id 2, Event.pkt (fakepacket 1)])
        (Event.pkt p)).sent =
      (worker insertionSlice okSender newpSync [Event.id 2, Event.pkt (fakepacket 1)]).sent) :=
  ⟨(stall_needs_side_behind insertionSlice okSender [Event.id 1, Event.pkt (fakepacket 2)]
      (by decide) 1 [] (fakepacket 2) [] (by decide) (by decide)).1 (by decide),
    ((stall_needs_side_behind insertionSlice okSender [Event.id 2, Event.pkt (fakepacket 1)]
      (by decide) 2 [] (fakepacket 1) [] (by decide) (by decide)).2 (by decide)).1⟩

/-! ## Failing sends -/

theorem worker_sender (S : SliceSort) (sender sender2 : packetSender) (evs : List Event) :
    ∀ s : packetSync, worker S sender s evs = worker S sender2 s evs := by
  induction evs with
  | nil => intro s; rfl
  | cons e evs ih =>
    intro s
    show worker S sender (workerStep S sender s e) evs =
      worker S sender2 (workerStep S sender2 s e) evs
    rw [workerStep_sender S sender sender2 s e]
    exact ih _

/-- C14: for every run of events the state the worker reaches, that is the
packets on which `sendPacket` has been called, in order, and the two pending
lists, is the same for any two senders, whatever their calls return.  A packet
at the head that matches the head identifier is removed together with that
identifier and recorded as sent, whatever the sender returns for it, and no
packet is handed to `sendPacket` more often than it was submitted. -/
theorem send_failure_keeps_matching (S : SliceSort) (sender sender2 : packetSender)
    (s : packetSync) (evs : List Event) :
    worker S sender s evs = worker S sender2 s evs ∧
    (∀ (ins : List Nat) (out : responsePacket) (outs sent : List responsePacket) (run : Bool),
      maybeSendPackets sender ⟨out.id :: ins, out :: outs, sent, run⟩ =
        maybeSendPackets sender ⟨ins, outs, sent ++ [out], run⟩) ∧
    (Event.fini ∉ evs → ∀ p,
      (worker S sender newpSync evs).sent.count p ≤ (packetsOf evs).count p) := by
  refine ⟨worker_sender S sender sender2 evs s, ?_, ?_⟩
  · intro ins out outs sent run
    simp [maybeSendPackets, maybeSendPacketsLoop]
  · intro hfini p
    have hr := worker_reached_fresh S sender evs hfini
    rw [hr.packets.count_eq p, List.count_append]
    exact Nat.le_add_right _ _

/-- With a sender whose every call fails, the packet 3 submitted once is handed
to `sendPacket` once, also when its identifier is submitted a second time. -/
theorem send_failure_keeps_matching_witness :
    (worker insertionSlice failSender newpSync
      [Event.id 3, Event.pkt (fakepacket 3), Event.id 3]).sent = [fakepacket 3] ∧
    (worker insertionSlice failSender newpSync
      [Event.id 3, Event.pkt (fakepacket 3), Event.id 3]).sent.count (fakepacket 3) ≤
        (packetsOf [Event.id 3, Event.pkt (fakepacket 3), Event.id 3]).count (fakepacket 3) :=
  ⟨by decide,
    (send_failure_keeps_matching insertionSlice failSender okSender newpSync
      [Event.id 3, Event.pkt (fakepacket 3), Event.id 3]).2.2 (by decide) (fakepacket 3)⟩

/-! ## The identifier 0 -/

/-- C15: in every state reached from a fresh coordinator by identifier and
packet events, the pending identifiers do not contain 0 while a packet with
identifier 0 is pending; once the identifier 0 and a packet with identifier 0
have both been submitted, a packet with identifier 0 has been sent; and when
the identifier 0 was never submitted, no packet with identifier 0 has been
sent. -/
theorem zero_is_not_gated (S : SliceSort) (sender : packetSender) (evs : List Event)
    (hfini : Event.fini ∉ evs) :
    ¬ (0 ∈ (worker S sender newpSync evs).incoming ∧
        ∃ p ∈ (worker S sender newpSync evs).outgoing, p.id = 0) ∧
    (0 ∈ tokensOf evs → (∃ p ∈ packetsOf evs, p.id = 0) →
      ∃ q ∈ (worker S sender newpSync evs).sent, q.id = 0) ∧
    (0 ∉ tokensOf evs → ∀ p ∈ (worker S sender newpSync evs).sent, p.id ≠ 0) := by
  have hr := worker_reached_fresh S sender evs hfini
  have hinv : ¬ (0 ∈ (worker S sender newpSync evs).incoming ∧
      ∃ p ∈ (worker S sender newpSync evs).outgoing, p.id = 0) := by
    rintro ⟨hin, p, hp, hp0⟩
    have his := hr.incSorted
    have hos := hr.outSorted
    have hm := hr.matchInv
    unfold MatchInvariant at hm
    generalize (worker S sender newpSync evs).incoming = inc at hin his hm
    generalize (worker S sender newpSync evs).outgoing = out at hp hos hm
    cases inc with
    | nil => simp at hin
    | cons i ins =>
      cases out with
      | nil => simp at hp
      | cons o outs =>
        have h1 : i ≤ 0 := ascending_head_le (fun x => x) his 0 hin
        have h2 : o.id ≤ p.id := ascending_head_le responsePacket.id hos p hp
        rcases hm with h | h | h
        · cases h
        · cases h
        · apply h
          simp only [idsOf, List.map_cons, List.head?_cons, Option.some.injEq]
          omega
  refine ⟨hinv, ?_, ?_⟩
  · rintro htok ⟨p, hp, hp0⟩
    have h1 : (0 : Nat) ∈ idsOf (worker S sender newpSync evs).sent ++
        (worker S sender newpSync evs).incoming := hr.tokens.subset htok
    have h2 : p ∈ (worker S sender newpSync evs).sent ++
        (worker S sender newpSync evs).outgoing := hr.packets.subset hp
    rcases List.mem_append.1 h1 with h3 | h3
    · obtain ⟨q, hq, hq0⟩ := List.mem_map.1 h3
      exact ⟨q, hq, hq0⟩
    · rcases List.mem_append.1 h2 with h4 | h4
      · exact ⟨p, h4, hp0⟩
      · exact absurd ⟨h3, p, h4, hp0⟩ hinv
  · intro hno p hp hp0
    apply hno
    have h1 : p.id ∈ idsOf (worker S sender newpSync evs).sent ++
        (worker S sender newpSync evs).incoming :=
      List.mem_append_left _ (List.mem_map.2 ⟨p, hp, rfl⟩)
    rw [← hp0]
    exact hr.tokens.symm.subset h1

/-- The identifier 0 and a packet 0 arrive while the identifier 5 and the
packets 7 and 9 are pending: the packet 0 is sent. -/
theorem zero_is_not_gated_witness :
    (worker insertionSlice okSender newpSync
      [Event.id 5, Event.pkt (fakepacket 9), Event.pkt (fakepacket 7), Event.pkt (fakepacket 0),
        Event.id 0]).sent = [fakepacket 0] ∧
    ∃ q ∈ (worker insertionSlice okSender newpSync
      [Event.id 5, Event.pkt (fakepacket 9), Event.pkt (fakepacket 7), Event.pkt (fakepacket 0),
        Event.id 0]).sent, q.id = 0 :=
  ⟨by decide,
    (zero_is_not_gated insertionSlice okSender
      [Event.id 5, Event.pkt (fakepacket 9), Event.pkt (fakepacket 7), Event.pkt (fakepacket 0),
        Event.id 0] (by decide)).2.1 (by decide) ⟨fakepacket 0, by decide, rfl⟩⟩

/-! ## Sorting after an append against ordered insertion -/

theorem sort_append_eq_insertToken (S : SliceSort) (l : List Nat) (x : Nat)
    (hl : l.Pairwise (fun a b => a ≤ b)) :
    S.run (fun a b => decide (a < b)) (l ++ [x]) = insertToken x l :=
  ascending_perm_eq
    ((S.perm _ _).trans
      ((List.perm_append_singleton x l).trans (List.perm_orderedInsert _ x l).symm))
    (S.ordered (fun x => x) _)
    (List.Sorted.orderedInsert x l hl)

theorem idsOf_insertPacket (p : responsePacket) (l : List responsePacket) :
    idsOf (insertPacket p l) = insertToken p.id (idsOf l) := by
  induction l with
  | nil => rfl
  | cons b l ih =>
    unfold insertPacket insertToken idsOf at *
    by_cases h : p.id ≤ b.id
    · simp [List.orderedInsert, h]
    · simp only [List.orderedInsert, List.map_cons, if_neg h]
      rw [ih]

theorem idsOf_sort_append (S : SliceSort) (l : List responsePacket) (p : responsePacket)
    (hl : (idsOf l).Pairwise (fun a b => a ≤ b)) :
    idsOf (S.run (fun a b => decide (a.id < b.id)) (l ++ [p])) = insertToken p.id (idsOf l) := by
  have hperm : (idsOf (S.run (fun a b => decide (a.id < b.id)) (l ++ [p]))).Perm
      (idsOf l ++ [p.id]) := by
    have h := List.Perm.map responsePacket.id (S.perm (fun a b => decide (a.id < b.id)) (l ++ [p]))
    simpa [idsOf] using h
  exact ascending_perm_eq
    (hperm.trans
      ((List.perm_append_singleton p.id (idsOf l)).trans
        (List.perm_orderedInsert _ p.id (idsOf l)).symm))
    (List.pairwise_map.2 (S.ordered responsePacket.id _))
    (List.Sorted.orderedInsert p.id (idsOf l) hl)

theorem sort_append_perm_insertPacket (S : SliceSort) (l : List responsePacket)
    (p : responsePacket) :
    (S.run (fun a b => decide (a.id < b.id)) (l ++ [p])).Perm (insertPacket p l) :=
  (S.perm _ _).trans
    ((List.perm_append_singleton p l).trans (List.perm_orderedInsert _ p l).symm)

theorem sort_append_eq_insertPacket (S : SliceSort) (l : List responsePacket)
    (p : responsePacket) (hl : l.Pairwise (fun a b => a.id ≤ b.id))
    (hnd : (idsOf (l ++ [p])).Nodup) :
    S.run (fun a b => decide (a.id < b.id)) (l ++ [p]) = insertPacket p l := by
  have hids : (idsOf l).Pairwise (fun a b => a ≤ b) := List.pairwise_map.2 hl
  have h1 : (idsOf (insertPacket p l)).Pairwise (fun a b => a ≤ b) := by
    rw [idsOf_insertPacket]
    exact List.Sorted.orderedInsert p.id (idsOf l) hids
  have h2 : (idsOf (insertPacket p l)).Nodup := by
    have hp : (idsOf (insertPacket p l)).Perm (idsOf (l ++ [p])) :=
      List.Perm.map responsePacket.id
        ((List.perm_orderedInsert _ p l).trans (List.perm_append_singleton p l).symm)
    exact (hp.nodup_iff).2 hnd
  have h3 : (idsOf (insertPacket p l)).Pairwise (fun a b => a < b) :=
    (h1.and h2).imp (fun hab => Nat.lt_of_le_of_ne hab.1 hab.2)
  exact ordered_perm_eq_of_increasing (sort_append_perm_insertPacket S l p)
    (S.ordered responsePacket.id _) (List.pairwise_map.1 h3)

theorem maybeSendPacketsLoop_ids (sender sender2 : packetSender) :
    ∀ (ins : List Nat) (outs outs2 sent sent2 : List responsePacket),
      idsOf outs = idsOf outs2 → idsOf sent = idsOf sent2 →
      (maybeSendPacketsLoop sender ins outs sent).1 =
        (maybeSendPacketsLoop sender2 ins outs2 sent2).1 ∧
      idsOf (maybeSendPacketsLoop sender ins outs sent).2.1 =
        idsOf (maybeSendPacketsLoop sender2 ins outs2 sent2).2.1 ∧
      idsOf (maybeSendPacketsLoop sender ins outs sent).2.2 =
        idsOf (maybeSendPacketsLoop sender2 ins outs2 sent2).2.2
  | [], outs, outs2, sent, sent2, ho, hs => by
    simp only [maybeSendPacketsLoop]
    exact ⟨trivial, ho, hs⟩
  | i :: ins, [], [], sent, sent2, ho, hs => by
    simp only [maybeSendPacketsLoop]
    exact ⟨trivial, trivial, hs⟩
  | i :: ins, [], o2 :: outs2, sent, sent2, ho, hs => by
    simp [idsOf] at ho
  | i :: ins, o :: outs, [], sent, sent2, ho, hs => by
    simp [idsOf] at ho
  | i :: ins, o :: outs, o2 :: outs2, sent, sent2, ho, hs => by
    have hid : o.id = o2.id := by
      simp only [idsOf, List.map_cons, List.cons.injEq] at ho
      exact ho.1
    have htl : idsOf outs = idsOf outs2 := by
      simp only [idsOf, List.map_cons, List.cons.injEq] at ho
      exact ho.2
    by_cases h : i = o.id
    · have h2 : i = o2.id := h.trans hid
      simp only [maybeSendPacketsLoop, if_pos h, if_pos h2]
      exact maybeSendPacketsLoop_ids sender sender2 ins outs outs2 (sent ++ [o]) (sent2 ++ [o2])
        htl (by rw [idsOf_append, idsOf_append, hs]; simp [idsOf, hid])
    · have h2 : ¬ i = o2.id := fun h3 => h (h3.trans hid.symm)
      simp only [maybeSendPacketsLoop, if_neg h, if_neg h2]
      exact ⟨trivial, ho, hs⟩

theorem maybeSendPackets_sameIds (sender sender2 : packetSender) {s t : packetSync}
    (h : SameIds s t) : SameIds (maybeSendPackets sender s) (maybeSendPackets sender2 t) := by
  obtain ⟨h1, h2, h3, h4⟩ := h
  have hl := maybeSendPacketsLoop_ids sender sender2 s.incoming s.outgoing t.outgoing
    s.sent t.sent h2 h3
  rw [h1] at hl
  exact ⟨by simpa [maybeSendPackets, h1] using hl.1, by simpa [maybeSendPackets, h1] using hl.2.1,
    by simpa [maybeSendPackets, h1] using hl.2.2, h4⟩

theorem workerStep_ascending (S : SliceSort) (sender : packetSender) (s : packetSync)
    (e : Event) (h : Ascending s) : Ascending (workerStep S sender s e) := by
  unfold workerStep
  by_cases hrun : s.running = true
  · rw [if_pos hrun]
    cases e with
    | id n =>
      exact maybeSendPackets_ascending sender _ (S.ordered (fun x => x) _) h.2
    | pkt p =>
      exact maybeSendPackets_ascending sender _ h.1 (S.ordered responsePacket.id _)
    | fini => exact h
  · rw [if_neg hrun]
    exact h

theorem workerStep_sameIds (S : SliceSort) (sender : packetSender) {s t : packetSync}
    (e : Event) (h : SameIds s t) (ha : Ascending s) :
    SameIds (workerStep S sender s e) (workerStepInsert sender t e) := by
  have hrun : t.running = s.running := h.2.2.2.symm
  unfold workerStep workerStepInsert
  by_cases hr : s.running = true
  · rw [if_pos hr, if_pos (hrun.trans hr)]
    cases e with
    | id n =>
      apply maybeSendPackets_sameIds
      refine ⟨?_, h.2.1, h.2.2.1, h.2.2.2⟩
      show S.run (fun a b => decide (a < b)) (s.incoming ++ [n]) = insertToken n t.incoming
      rw [← h.1]
      exact sort_append_eq_insertToken S s.incoming n ha.1
    | pkt p =>
      apply maybeSendPackets_sameIds
      refine ⟨h.1, ?_, h.2.2.1, h.2.2.2⟩
      show idsOf (S.run (fun a b => decide (a.id < b.id)) (s.outgoing ++ [p])) =
        idsOf (insertPacket p t.outgoing)
      rw [idsOf_insertPacket, ← h.2.1]
      exact idsOf_sort_append S s.outgoing p (List.pairwise_map.2 ha.2)
    | fini => exact ⟨h.1, h.2.1, h.2.2.1, rfl⟩
  · rw [if_neg hr, if_neg (fun h2 => hr (hrun.symm.trans h2))]
    exact h

theorem worker_sameIds (S : SliceSort) (sender : packetSender) (evs : List Event) :
    ∀ s t : packetSync, SameIds s t → Ascending s →
      SameIds (worker S sender s evs) (workerInsert sender t evs) := by
  induction evs with
  | nil => intro s t h _; exact h
  | cons e evs ih =>
    intro s t h ha
    exact ih _ _ (workerStep_sameIds S sender e h ha) (workerStep_ascending S sender s e ha)

theorem workerInsert_append (sender : packetSender) (s : packetSync) (evs : List Event)
    (e : Event) :
    workerInsert sender s (evs ++ [e]) = workerStepInsert sender (workerInsert sender s evs) e := by
  simp [workerInsert, List.foldl_append]

theorem worker_eq_workerInsert (S : SliceSort) (sender : packetSender) (evs : List Event)
    (hfini : Event.fini ∉ evs) (hnd : (idsOf (packetsOf evs)).Nodup) :
    worker S sender newpSync evs = workerInsert sender newpSync evs := by
  induction evs using List.reverseRecOn with
  | nil => rfl
  | append_singleton xs e ih =>
    have hxs : Event.fini ∉ xs := fun h => hfini (List.mem_append_left _ h)
    have hndxs : (idsOf (packetsOf xs)).Nodup := by
      rw [packetsOf_append, idsOf_append] at hnd
      exact hnd.of_append_left
    have hr := worker_reached_fresh S sender xs hxs
    rw [worker_append, workerInsert_append, ← ih hxs hndxs]
    unfold workerStep workerStepInsert
    rw [if_pos hr.running, if_pos hr.running]
    cases e with
    | id n =>
      show maybeSendPackets sender _ = maybeSendPackets sender _
      rw [sort_append_eq_insertToken S _ n hr.incSorted]
    | pkt p =>
      show maybeSendPackets sender _ = maybeSendPackets sender _
      have h1 : (idsOf (packetsOf xs ++ [p])).Perm
          (idsOf (worker S sender newpSync xs).sent ++
            idsOf ((worker S sender newpSync xs).outgoing ++ [p])) := by
        rw [← idsOf_append, ← List.append_assoc]
        exact List.Perm.map _ (List.Perm.append_right [p] hr.packets)
      have h2 : (idsOf ((worker S sender newpSync xs).outgoing ++ [p])).Nodup := by
        have h3 : packetsOf (xs ++ [Event.pkt p]) = packetsOf xs ++ [p] := by
          simp [packetsOf_append, packetsOf]
        rw [h3] at hnd
        exact ((h1.nodup_iff).1 hnd).of_append_right
      rw [sort_append_eq_insertPacket S _ p hr.outSorted h2]
    | fini => rfl

/-- C16: for an ascending list of pending identifiers, appending an identifier
and sorting gives the list with the identifier inserted at its ordered
position.  For a list of pending packets ascending by identifier, appending a
packet and sorting gives a rearrangement of the ordered insertion with the same
identifiers position by position, and the very same list when no two packets
carry one identifier.  A worker that inserts instead of sorting reaches, on
every run from a fresh coordinator, a state with the same pending identifiers,
the same identifiers of pending packets and the same identifiers sent, and the
very same state when the submitted packets carry pairwise distinct
identifiers. -/
theorem append_sort_is_ordered_insertion (S : SliceSort) (sender : packetSender) :
    (∀ (l : List Nat) (x : Nat), l.Pairwise (fun a b => a ≤ b) →
      S.run (fun a b => decide (a < b)) (l ++ [x]) = insertToken x l) ∧
    (∀ (l : List responsePacket) (p : responsePacket), l.Pairwise (fun a b => a.id ≤ b.id) →
      (S.run (fun a b => decide (a.id < b.id)) (l ++ [p])).Perm (insertPacket p l) ∧
      idsOf (S.run (fun a b => decide (a.id < b.id)) (l ++ [p])) = idsOf (insertPacket p l) ∧
      ((idsOf (l ++ [p])).Nodup →
        S.run (fun a b => decide (a.id < b.id)) (l ++ [p]) = insertPacket p l)) ∧
    (∀ evs : List Event,
      SameIds (worker S sender newpSync evs) (workerInsert sender newpSync evs)) ∧
    (∀ evs : List Event, Event.fini ∉ evs → (idsOf (packetsOf evs)).Nodup →
      worker S sender newpSync evs = workerInsert sender newpSync evs) := by
  refine ⟨sort_append_eq_insertToken S, ?_, ?_, worker_eq_workerInsert S sender⟩
  · intro l p hl
    refine ⟨sort_append_perm_insertPacket S l p, ?_, sort_append_eq_insertPacket S l p hl⟩
    rw [idsOf_insertPacket]
    exact idsOf_sort_append S l p (List.pairwise_map.2 hl)
  · intro evs
    exact worker_sameIds S sender evs newpSync newpSync ⟨rfl, rfl, rfl, rfl⟩
      ⟨List.Pairwise.nil, List.Pairwise.nil⟩

/-- Appending 4 to the pending identifiers `2,5,8` and sorting is inserting 4
between 2 and 5. -/
theorem append_sort_is_ordered_insertion_witness :
    insertToken 4 [2, 5, 8] = [2, 4, 5, 8] ∧
    insertionSlice.run (fun a b => decide (a < b)) ([2, 5, 8] ++ [4]) = insertToken 4 [2, 5, 8] :=
  ⟨by decide,
    (append_sort_is_ordered_insertion insertionSlice okSender).1 [2, 5, 8] 4 (by decide)⟩

/-! ## The stopped worker -/

theorem workerStep_running (S : SliceSort) (sender : packetSender) (s : packetSync)
    (e : Event) (he : e ≠ Event.fini) : (workerStep S sender s e).running = s.running := by
  unfold workerStep
  by_cases hr : s.running = true
  · rw [if_pos hr]
    cases e with
    | id n => rfl
    | pkt p => rfl
    | fini => exact absurd rfl he
  · rw [if_neg hr]

theorem worker_running (S : SliceSort) (sender : packetSender) (evs : List Event) :
    ∀ s : packetSync, Event.fini ∉ evs → (worker S sender s evs).running = s.running := by
  induction evs with
  | nil => intro s _; rfl
  | cons e evs ih =>
    intro s hfini
    have he : e ≠ Event.fini := fun h => hfini (by simp [h])
    have hevs : Event.fini ∉ evs := fun h => hfini (List.mem_cons_of_mem _ h)
    show (worker S sender (workerStep S sender s e) evs).running = s.running
    rw [ih _ hevs, workerStep_running S sender s e he]

theorem worker_fini_cut (S : SliceSort) (sender : packetSender) (s : packetSync)
    (pre post : List Event) :
    worker S sender s (pre ++ Event.fini :: post) = worker S sender s (pre ++ [Event.fini]) := by
  have h : worker S sender s (pre ++ Event.fini :: post) =
      worker S sender (worker S sender s (pre ++ [Event.fini])) post := by
    simp [worker, List.foldl_append]
  rw [h]
  exact worker_stopped S sender post _
    (worker_running_after_fini S sender s pre [])

/-- C17: the worker as a step function over identifier, packet and shutdown
events.  The turn that receives the shutdown signal changes nothing but the
worker's state to stopped, the drain is not run.  Once a shutdown signal has
been received the worker is stopped, the events after it change nothing at all
(pending lists and calls to `sendPacket` included), and so does any further
event.  Before any shutdown signal a started worker is running, and a running
worker takes each identifier and each packet through the sort and the drain. -/
theorem stopped_is_terminal (S : SliceSort) (sender : packetSender) (s : packetSync)
    (pre post : List Event) :
    workerStep S sender s Event.fini = { s with running := false } ∧
    worker S sender s (pre ++ Event.fini :: post) = worker S sender s (pre ++ [Event.fini]) ∧
    (worker S sender s (pre ++ Event.fini :: post)).running = false ∧
    (∀ e, workerStep S sender (worker S sender s (pre ++ Event.fini :: post)) e =
      worker S sender s (pre ++ Event.fini :: post)) ∧
    (s.running = true → Event.fini ∉ pre →
      (worker S sender s pre).running = true ∧
      (∀ n, workerStep S sender (worker S sender s pre) (Event.id n) =
        maybeSendPackets sender
          { worker S sender s pre with
            incoming := S.run (fun a b => decide (a < b))
              ((worker S sender s pre).incoming ++ [n]) }) ∧
      (∀ p, workerStep S sender (worker S sender s pre) (Event.pkt p) =
        maybeSendPackets sender
          { worker S sender s pre with
            outgoing := S.run (fun a b => decide (a.id < b.id))
              ((worker S sender s pre).outgoing ++ [p]) })) := by
  refine ⟨?_, worker_fini_cut S sender s pre post,
    worker_running_after_fini S sender s pre post,
    fun e => workerStep_stopped S sender _ e (worker_running_after_fini S sender s pre post), ?_⟩
  · unfold workerStep
    cases h : s.running
    · obtain ⟨a, b, c, d⟩ := s
      simp only at h
      simp [h]
    · simp
  · intro hrun hfini
    have h : (worker S sender s pre).running = true := by
      rw [worker_running S sender pre s hfini, hrun]
    exact ⟨h, fun n => by simp [workerStep, h], fun p => by simp [workerStep, h]⟩

/-- A pair is pending when the shutdown signal arrives after the identifier 1:
the packet 1 that follows is neither queued nor sent. -/
theorem stopped_is_terminal_witness :
    worker insertionSlice okSender newpSync
        ([Event.id 1] ++ Event.fini :: [Event.pkt (fakepacket 1)]) = ⟨[1], [], [], false⟩ ∧
    (worker insertionSlice okSender newpSync [Event.id 1]).running = true :=
  ⟨by decide,
    ((stopped_is_terminal insertionSlice okSender newpSync [Event.id 1]
      [Event.pkt (fakepacket 1)]).2.2.2.2 rfl (by decide)).1⟩

end PacketSync
